import Mathlib

/-!
Verification of the data-acquisition chunking/reconciliation engine and the
strategy/backtest engine of a Django trading application.

The embedding follows `stock_data/services.py` and
`stock_data/strategy_service.py`.  Calendar dates are modelled as integer
day numbers (Julian day numbers via `toRD`); subtracting two Python
`datetime`/`date` values and reading `.days` corresponds to subtracting the
day numbers.  Prices are modelled as rationals (`ℚ`), standing for the
real-valued arithmetic the Python code performs on floats.
-/

/-- The `KITE_LIMITS` table from `services.py`: maximum date-span in days
per upstream API call, keyed by sampling interval.  `KITE_LIMITS.get(interval, 60)`
defaults to 60 for unknown intervals. -/
def kiteLimit (interval : String) : ℕ :=
  if interval = "minute" then 60
  else if interval = "3minute" then 100
  else if interval = "5minute" then 100
  else if interval = "10minute" then 100
  else if interval = "15minute" then 200
  else if interval = "30minute" then 200
  else if interval = "60minute" then 400
  else if interval = "hour" then 400
  else if interval = "day" then 2000
  else if interval = "daily" then 2000
  else 60

/-- The `while current_start < to_date` loop of `calculate_date_chunks`.
Each iteration emits `(current_start, min (current_start + limit) to_date)`
and advances the cursor to that chunk's end plus one day.  The loop is
written with explicit fuel so that it evaluates by kernel reduction; the
cursor strictly increases each iteration, so fuel `(to_date - from_date).toNat`
is always sufficient (proved in `chunkLoop_fuel_irrel` below). -/
def chunkLoop (limit : ℕ) (to_date : ℤ) : ℕ → ℤ → List (ℤ × ℤ)
  | 0, _ => []
  | fuel + 1, cur =>
      if cur < to_date then
        (cur, min (cur + limit) to_date) :: chunkLoop limit to_date fuel (min (cur + limit) to_date + 1)
      else []

/-- `calculate_date_chunks(from_date, to_date, interval)` from `services.py`.
If the requested span is within the interval's limit it returns the single
whole range, otherwise it chunks with the loop above. -/
def calculate_date_chunks (from_date to_date : ℤ) (interval : String) : List (ℤ × ℤ) :=
  let limit := kiteLimit interval
  if to_date - from_date ≤ (limit : ℤ) then [(from_date, to_date)]
  else chunkLoop limit to_date (to_date - from_date).toNat from_date

/-- Julian day number of a Gregorian calendar date; `toRD y2 m2 d2 - toRD y1 m1 d1`
equals Python's `(date(y2,m2,d2) - date(y1,m1,d1)).days`. -/
def toRD (y m d : ℤ) : ℤ :=
  let a := (14 - m) / 12
  let y' := y + 4800 - a
  let m' := m + 12 * a - 3
  d + (153 * m' + 2) / 5 + 365 * y' + y' / 4 - y' / 100 + y' / 400 - 32045

/-- Any fuel at least `(to_date - cur).toNat` gives the same chunk list. -/
theorem chunkLoop_fuel_irrel (limit : ℕ) (to_date : ℤ) :
    ∀ fuel₁ fuel₂ cur, (to_date - cur).toNat ≤ fuel₁ → (to_date - cur).toNat ≤ fuel₂ →
      chunkLoop limit to_date fuel₁ cur = chunkLoop limit to_date fuel₂ cur := by
  intro fuel₁
  induction fuel₁ with
  | zero =>
      intro fuel₂ cur h1 _
      have hcur : ¬ cur < to_date := by omega
      cases fuel₂ with
      | zero => rfl
      | succ n => simp [chunkLoop, hcur]
  | succ n ih =>
      intro fuel₂ cur h1 h2
      cases fuel₂ with
      | zero =>
          have hcur : ¬ cur < to_date := by omega
          simp [chunkLoop, hcur]
      | succ k =>
          by_cases hcur : cur < to_date
          · simp only [chunkLoop, if_pos hcur]
            have hnext : (to_date - (min (cur + limit) to_date + 1)).toNat ≤ n := by omega
            have hnext2 : (to_date - (min (cur + limit) to_date + 1)).toNat ≤ k := by omega
            rw [ih k _ hnext hnext2]
          · simp [chunkLoop, hcur]

/-- Length of the chunk loop: with sufficient fuel it emits
`⌈(to_date - cur) / (limit + 1)⌉` chunks (0 when `cur ≥ to_date`). -/
theorem chunkLoop_length (limit : ℕ) (to_date : ℤ) :
    ∀ fuel cur, (to_date - cur).toNat ≤ fuel →
      (chunkLoop limit to_date fuel cur).length
        = ((to_date - cur).toNat + limit) / (limit + 1) := by
  intro fuel
  induction fuel with
  | zero =>
      intro cur h
      have h0 : (to_date - cur).toNat = 0 := by omega
      rw [h0, Nat.zero_add, Nat.div_eq_of_lt (by omega)]
      rfl
  | succ n ih =>
      intro cur h
      by_cases hcur : cur < to_date
      · simp only [chunkLoop, if_pos hcur, List.length_cons]
        have hnext : (to_date - (min (cur + limit) to_date + 1)).toNat ≤ n := by omega
        rw [ih _ hnext]
        by_cases hbig : cur + limit < to_date
        · have hmin : min (cur + (limit : ℤ)) to_date = cur + limit := by omega
          rw [hmin]
          have h1 : (to_date - (cur + limit + 1)).toNat = (to_date - cur).toNat - (limit + 1) := by
            omega
          have h2 : (limit + 1) ≤ (to_date - cur).toNat := by omega
          rw [h1]
          have key : (to_date - cur).toNat + limit
              = ((to_date - cur).toNat - (limit + 1) + limit) + (limit + 1) := by omega
          rw [key, Nat.add_div_right _ (by omega : 0 < limit + 1)]
        · have hmin : min (cur + (limit : ℤ)) to_date = to_date := by omega
          rw [hmin]
          have h1 : (to_date - (to_date + 1)).toNat = 0 := by omega
          rw [h1]
          have hs1 : 1 ≤ (to_date - cur).toNat := by omega
          have hs2 : (to_date - cur).toNat ≤ limit := by omega
          have key : (to_date - cur).toNat + limit
              = ((to_date - cur).toNat - 1) + (limit + 1) := by omega
          rw [key, Nat.add_div_right _ (by omega : 0 < limit + 1),
            Nat.div_eq_of_lt (by omega), Nat.zero_add,
            Nat.div_eq_of_lt (by omega)]
      · have h0 : (to_date - cur).toNat = 0 := by omega
        simp only [chunkLoop, if_neg hcur, List.length_nil, h0, Nat.zero_add]
        rw [Nat.div_eq_of_lt (by omega)]

/-- C1: the claim asserts `calculate_date_chunks` always covers the full
inclusive range `[from, to]`.  The code's loop stops as soon as the cursor
reaches `to_date` (`while current_start < to_date`), so when the span is a
positive multiple of `limit + 1` the final requested day falls in no chunk.
This theorem evaluates the code at the failing input
from = 2024-01-01, to = 2024-05-02 (span 122 = 2·61 days), interval "minute"
(limit 60): the chunks are [2024-01-01, 2024-03-01] and [2024-03-02, 2024-05-01],
and both chunk end-dates are strictly before the requested to-date, so no
chunk's day-range contains 2024-05-02. -/
theorem c1_chunks_miss_final_day :
    calculate_date_chunks (toRD 2024 1 1) (toRD 2024 5 2) "minute"
      = [(toRD 2024 1 1, toRD 2024 3 1), (toRD 2024 3 2, toRD 2024 5 1)]
    ∧ toRD 2024 3 1 < toRD 2024 5 2 ∧ toRD 2024 5 1 < toRD 2024 5 2 := by
  decide

/-- C5 counterexample: the claim states the number of chunks equals
`⌈span / limit⌉`.  For span 121 and interval "minute" (limit 60) that would be
`⌈121/60⌉ = 3`, but the code produces only 2 chunks (its cursor advances by
`limit + 1 = 61` days per chunk, since chunk endpoints are inclusive). -/
theorem c5_count_counterexample :
    ¬ (calculate_date_chunks 0 121 "minute").length
        = (121 + kiteLimit "minute" - 1) / kiteLimit "minute" := by
  decide

/-- C5 (amended): for every `from ≤ to` and every interval, the number of
chunks is 1 when the span is within the interval's limit, and
`⌈span / (limit + 1)⌉` otherwise; the example
`calculate_date_chunks(2024-01-01, 2024-04-01, "minute")` (91-day span,
limit 60) yields exactly the two chunks [2024-01-01, 2024-03-01] and
[2024-03-02, 2024-04-01]. -/
theorem c5_chunk_count (from_date to_date : ℤ) (interval : String)
    (_h : from_date ≤ to_date) :
    ((calculate_date_chunks from_date to_date interval).length
      = if to_date - from_date ≤ (kiteLimit interval : ℤ) then 1
        else ((to_date - from_date).toNat + kiteLimit interval) / (kiteLimit interval + 1))
    ∧ calculate_date_chunks (toRD 2024 1 1) (toRD 2024 4 1) "minute"
        = [(toRD 2024 1 1, toRD 2024 3 1), (toRD 2024 3 2, toRD 2024 4 1)] := by
  constructor
  · unfold calculate_date_chunks
    by_cases hle : to_date - from_date ≤ (kiteLimit interval : ℤ)
    · simp [hle]
    · simp only [if_neg hle]
      exact chunkLoop_length (kiteLimit interval) to_date _ from_date le_rfl
  · decide

/-- C5 witness: the chunk-count formula instantiated at the concrete input
from = 0, to = 121, interval "minute". -/
theorem c5_chunk_count_witness :
    (calculate_date_chunks 0 121 "minute").length
      = if (121 : ℤ) - 0 ≤ (kiteLimit "minute" : ℤ) then 1
        else (((121 : ℤ) - 0).toNat + kiteLimit "minute") / (kiteLimit "minute" + 1) :=
  (c5_chunk_count 0 121 "minute" (by decide)).1

/-- An OHLCV record as handled by `fetch_and_combine_data`.  The record's
`date` is its timestamp (modelled as an integer instant); prices are
rationals and volume an integer. -/
structure OHLCVRec where
  date : ℤ
  openPrice : ℚ
  highPrice : ℚ
  lowPrice : ℚ
  closePrice : ℚ
  volume : ℤ
deriving DecidableEq

/-- The per-chunk loop of `fetch_and_combine_data` (services.py lines
106-134): each chunk's fetch result is appended to `all_data` when the
call succeeds and returns records; a raised exception (`Except.error`) is
logged and skipped (`continue`), and an empty result contributes nothing.
The upstream fetcher is abstracted as a function from a chunk to either a
record list or an exception. -/
def fetchChunks (fetch : ℤ × ℤ → Except String (List OHLCVRec)) :
    List (ℤ × ℤ) → List OHLCVRec
  | [] => []
  | c :: cs =>
      match fetch c with
      | .ok d => d ++ fetchChunks fetch cs
      | .error _ => fetchChunks fetch cs

/-- The fallback (non-pandas) deduplication loop of `fetch_and_combine_data`:
first-seen record per timestamp is kept, later duplicates are dropped
(`seen_dates` set).  The pandas branch (`drop_duplicates(subset=['date'])`,
keep-first) has the same semantics. -/
def dedupeGo (seen : List ℤ) : List OHLCVRec → List OHLCVRec
  | [] => []
  | r :: rs =>
      if r.date ∈ seen then dedupeGo seen rs
      else r :: dedupeGo (r.date :: seen) rs

/-- `deduplicated_data` built from an empty `seen_dates` set. -/
def dedupeByDate (l : List OHLCVRec) : List OHLCVRec := dedupeGo [] l

/-- Comparison by timestamp, the sort key
`lambda x: x.get('date') or ...` used by `sorted`. -/
def dateLE (a b : OHLCVRec) : Prop := a.date ≤ b.date

instance : DecidableRel dateLE := fun a b => inferInstanceAs (Decidable (a.date ≤ b.date))

instance : IsTotal OHLCVRec dateLE := ⟨fun a b => Int.le_total a.date b.date⟩

instance : IsTrans OHLCVRec dateLE := ⟨fun _ _ _ hab hbc => le_trans hab hbc⟩

/-- `sorted(deduplicated_data, key=...)`: a comparison sort by timestamp.
Python's `sorted` is stable; after deduplication the keys are pairwise
distinct, so any stable comparison sort produces the same list as
insertion sort. -/
def sortByDate (l : List OHLCVRec) : List OHLCVRec := List.insertionSort dateLE l

/-- The body of `fetch_and_combine_data` from the chunk loop on, over an
arbitrary chunk list: accumulate per-chunk results (skipping failed
chunks), raise when nothing was accumulated, otherwise deduplicate by
timestamp and sort ascending. -/
def combineChunks (fetch : ℤ × ℤ → Except String (List OHLCVRec))
    (chunks : List (ℤ × ℤ)) : Except String (List OHLCVRec) :=
  let all_data := fetchChunks fetch chunks
  if all_data.isEmpty then .error "No data could be fetched from any chunks"
  else .ok (sortByDate (dedupeByDate all_data))

/-- `fetch_and_combine_data(kite_service, symbol, from_date, to_date, interval)`:
plans the chunks with `calculate_date_chunks` and runs the combine loop.
(The preceding symbol-token lookup, which raises for an unknown symbol, is
outside the scope of the claims and is represented by the already-resolved
`fetch` function.) -/
def fetch_and_combine_data (fetch : ℤ × ℤ → Except String (List OHLCVRec))
    (from_date to_date : ℤ) (interval : String) : Except String (List OHLCVRec) :=
  combineChunks fetch (calculate_date_chunks from_date to_date interval)

/-- The accumulated data is empty exactly when every chunk either raised or
returned no records. -/
theorem fetchChunks_eq_nil_iff (fetch : ℤ × ℤ → Except String (List OHLCVRec)) :
    ∀ chunks, fetchChunks fetch chunks = [] ↔
      ∀ c ∈ chunks, ∀ d, fetch c = .ok d → d = [] := by
  intro chunks
  induction chunks with
  | nil => simp [fetchChunks]
  | cons c cs ih =>
      cases hfc : fetch c with
      | ok d =>
          simp only [fetchChunks, hfc, List.append_eq_nil, ih, List.mem_cons]
          constructor
          · rintro ⟨hd, hrest⟩ c' hc' d' hfc'
            rcases hc' with rfl | hc'
            · rw [hfc] at hfc'; cases hfc'; exact hd
            · exact hrest c' hc' d' hfc'
          · intro hall
            exact ⟨hall c (Or.inl rfl) d hfc, fun c' hc' d' hfc' => hall c' (Or.inr hc') d' hfc'⟩
      | error e =>
          simp only [fetchChunks, hfc, ih, List.mem_cons]
          constructor
          · rintro hrest c' hc' d' hfc'
            rcases hc' with rfl | hc'
            · rw [hfc] at hfc'; cases hfc'
            · exact hrest c' hc' d' hfc'
          · intro hall c' hc' d' hfc'
            exact hall c' (Or.inr hc') d' hfc'

/-- After deduplication, the timestamps are pairwise distinct and avoid
the accumulated `seen` set. -/
theorem dedupeGo_nodup : ∀ (l : List OHLCVRec) (seen : List ℤ),
    ((dedupeGo seen l).map (·.date)).Nodup
    ∧ ∀ d ∈ (dedupeGo seen l).map (·.date), d ∉ seen := by
  intro l
  induction l with
  | nil => intro seen; simp [dedupeGo]
  | cons r rs ih =>
      intro seen
      by_cases hmem : r.date ∈ seen
      · simpa [dedupeGo, hmem] using ih seen
      · obtain ⟨hnd, havoid⟩ := ih (r.date :: seen)
        refine ⟨?_, ?_⟩
        · simp only [dedupeGo, if_neg hmem, List.map_cons, List.nodup_cons]
          exact ⟨fun hc => (havoid _ hc) (List.mem_cons_self _ _), hnd⟩
        · intro d hd
          simp only [dedupeGo, if_neg hmem, List.map_cons, List.mem_cons] at hd
          rcases hd with rfl | hd
          · exact hmem
          · intro hds
            exact (havoid d hd) (List.mem_cons_of_mem _ hds)

/-- A timestamp already in `seen` never appears in the deduplicated list. -/
theorem dedupeGo_countP_seen (ts : ℤ) : ∀ (l : List OHLCVRec) (seen : List ℤ), ts ∈ seen →
    (dedupeGo seen l).countP (fun r => r.date = ts) = 0 := by
  intro l
  induction l with
  | nil => intro seen _; simp [dedupeGo]
  | cons r rs ih =>
      intro seen hts
      by_cases hmem : r.date ∈ seen
      · simpa [dedupeGo, hmem] using ih seen hts
      · have hne : ¬ (r.date = ts) := fun h => hmem (h ▸ hts)
        simp only [dedupeGo, if_neg hmem, List.countP_cons, decide_eq_true_eq, hne,
          if_false, Nat.add_zero]
        exact ih (r.date :: seen) (List.mem_cons_of_mem _ hts)

/-- A timestamp occurring in the input (and not yet seen) appears exactly
once in the deduplicated list. -/
theorem dedupeGo_countP_once (ts : ℤ) : ∀ (l : List OHLCVRec) (seen : List ℤ), ts ∉ seen →
    (∃ r ∈ l, r.date = ts) →
    (dedupeGo seen l).countP (fun r => r.date = ts) = 1 := by
  intro l
  induction l with
  | nil => rintro seen _ ⟨r, hr, _⟩; simp at hr
  | cons r rs ih =>
      rintro seen hts ⟨r', hr', hr'ts⟩
      by_cases hmem : r.date ∈ seen
      · have hne : r' ≠ r := by rintro rfl; exact hts (hr'ts ▸ hmem)
        have hr's : r' ∈ rs := by
          rcases List.mem_cons.mp hr' with rfl | h
          · exact absurd rfl hne
          · exact h
        simpa [dedupeGo, hmem] using ih seen hts ⟨r', hr's, hr'ts⟩
      · have hstep : dedupeGo seen (r :: rs) = r :: dedupeGo (r.date :: seen) rs := by
          simp [dedupeGo, hmem]
        by_cases hrts : r.date = ts
        · have h0 : (dedupeGo (r.date :: seen) rs).countP (fun x => x.date = ts) = 0 :=
            dedupeGo_countP_seen ts rs (r.date :: seen) (by simp [hrts])
          rw [hstep, List.countP_cons_of_pos _ _ (by simp [hrts]), h0]
        · have hne : r' ≠ r := by rintro rfl; exact hrts hr'ts
          have hr's : r' ∈ rs := by
            rcases List.mem_cons.mp hr' with rfl | h
            · exact absurd rfl hne
            · exact h
          have hts' : ts ∉ r.date :: seen := by
            intro hmem2
            rcases List.mem_cons.mp hmem2 with h | h
            · exact hrts h.symm
            · exact hts h
          rw [hstep, List.countP_cons_of_neg _ _ (by simp [hrts])]
          exact ih (r.date :: seen) hts' ⟨r', hr's, hr'ts⟩

/-- C3: `fetch_and_combine_data` continues to the next chunk when a chunk's
fetch raises (the accumulated result over `err-chunk :: rest` equals the
result over `rest` alone); it raises exactly when no chunk yielded any
records; and whenever at least one chunk yields records it returns a
combined series. -/
theorem c3_chunk_error_tolerance (fetch : ℤ × ℤ → Except String (List OHLCVRec)) :
    (∀ c e cs, fetch c = .error e →
        combineChunks fetch (c :: cs) = combineChunks fetch cs)
    ∧ (∀ from_date to_date interval,
        ((∃ msg, fetch_and_combine_data fetch from_date to_date interval = .error msg)
          ↔ ∀ c ∈ calculate_date_chunks from_date to_date interval,
              ∀ d, fetch c = .ok d → d = [])
        ∧ ((∃ c ∈ calculate_date_chunks from_date to_date interval,
              ∃ d, fetch c = .ok d ∧ d ≠ []) →
            ∃ out, fetch_and_combine_data fetch from_date to_date interval = .ok out)) := by
  have herr_iff : ∀ chunks, (∃ msg, combineChunks fetch chunks = .error msg)
      ↔ ∀ c ∈ chunks, ∀ d, fetch c = .ok d → d = [] := by
    intro chunks
    rw [← fetchChunks_eq_nil_iff]
    unfold combineChunks
    by_cases hnil : fetchChunks fetch chunks = []
    · simp [hnil]
    · simp [hnil, List.isEmpty_iff]
  refine ⟨?_, ?_⟩
  · intro c e cs hfc
    unfold combineChunks
    simp only [fetchChunks, hfc]
  · intro from_date to_date interval
    refine ⟨herr_iff _, ?_⟩
    rintro ⟨c, hc, d, hfc, hd⟩
    unfold fetch_and_combine_data combineChunks
    by_cases hnil : fetchChunks fetch (calculate_date_chunks from_date to_date interval) = []
    · exact absurd ((fetchChunks_eq_nil_iff fetch _).mp hnil c hc d hfc) hd
    · simp only [List.isEmpty_iff, hnil, if_false]
      exact ⟨_, rfl⟩

/-- A concrete upstream fetcher used to instantiate the reconciliation
theorems: chunk `(0, 1)` yields three records, two of which share the
timestamp 2 (simulating duplicated records); every other chunk raises. -/
def wFetch : ℤ × ℤ → Except String (List OHLCVRec) := fun c =>
  if c = (0, 1) then
    .ok [⟨2, 5, 5, 5, 5, 5⟩, ⟨1, 1, 1, 1, 1, 1⟩, ⟨2, 9, 9, 9, 9, 9⟩]
  else .error "boom"

/-- C3 witness: the chunk-skip law instantiated at a failing chunk `(5, 6)`
followed by the succeeding chunk `(0, 1)`. -/
theorem c3_chunk_error_tolerance_witness :
    combineChunks wFetch ((5, 6) :: [(0, 1)]) = combineChunks wFetch [(0, 1)] :=
  (c3_chunk_error_tolerance wFetch).1 (5, 6) "boom" [(0, 1)] rfl

/-- C4: the series returned by `fetch_and_combine_data` has pairwise
distinct, strictly ascending timestamps, and any timestamp occurring among
the records accumulated from the chunks appears on exactly one record of
the returned series. -/
theorem c4_series_strictly_ascending (fetch : ℤ × ℤ → Except String (List OHLCVRec))
    (from_date to_date : ℤ) (interval : String) (out : List OHLCVRec)
    (h : fetch_and_combine_data fetch from_date to_date interval = .ok out) :
    ((out.map (·.date)).Pairwise (· < ·))
    ∧ ∀ ts, (∃ r ∈ fetchChunks fetch (calculate_date_chunks from_date to_date interval),
        r.date = ts) →
      (out.filter (fun r => r.date = ts)).length = 1 := by
  have hout : out = sortByDate (dedupeByDate
      (fetchChunks fetch (calculate_date_chunks from_date to_date interval))) := by
    unfold fetch_and_combine_data combineChunks at h
    by_cases hnil :
        (fetchChunks fetch (calculate_date_chunks from_date to_date interval)).isEmpty
    · simp [hnil] at h
    · simp only [hnil, if_false] at h
      exact (Except.ok.injEq _ _).mp h.symm
  set all := fetchChunks fetch (calculate_date_chunks from_date to_date interval) with hall
  have hperm : List.Perm (sortByDate (dedupeByDate all)) (dedupeByDate all) :=
    List.perm_insertionSort dateLE _
  have hsorted : List.Pairwise dateLE (sortByDate (dedupeByDate all)) :=
    List.sorted_insertionSort dateLE _
  have hnodup : ((dedupeByDate all).map (·.date)).Nodup := (dedupeGo_nodup all []).1
  have hnodup_out : ((sortByDate (dedupeByDate all)).map (·.date)).Nodup :=
    ((hperm.map (·.date)).nodup_iff).mpr hnodup
  constructor
  · rw [hout]
    have hle : ((sortByDate (dedupeByDate all)).map (·.date)).Pairwise (· ≤ ·) :=
      List.pairwise_map.mpr hsorted
    exact (hle.and hnodup_out).imp (fun hab => lt_of_le_of_ne hab.1 hab.2)
  · intro ts hts
    rw [hout, ← List.countP_eq_length_filter, List.Perm.countP_eq _ hperm]
    exact dedupeGo_countP_once ts all [] (by simp) hts

/-- C4 witness: for the concrete fetcher `wFetch` over the single chunk
planned for `from = 0, to = 1`, the accumulated records hold timestamps
`[2, 1, 2]`; the returned series is strictly ascending and holds exactly one
record with the duplicated timestamp 2. -/
theorem c4_series_strictly_ascending_witness :
    ((([⟨1, 1, 1, 1, 1, 1⟩, ⟨2, 5, 5, 5, 5, 5⟩] : List OHLCVRec).map (·.date)).Pairwise (· < ·))
    ∧ (([⟨1, 1, 1, 1, 1, 1⟩, ⟨2, 5, 5, 5, 5, 5⟩] : List OHLCVRec).filter
        (fun r => r.date = 2)).length = 1 := by
  have h := c4_series_strictly_ascending wFetch 0 1 "minute"
    [⟨1, 1, 1, 1, 1, 1⟩, ⟨2, 5, 5, 5, 5, 5⟩] rfl
  exact ⟨h.1, h.2 2 (by decide)⟩

/-- Filenames and paths are modelled as character lists.  `countUnderscore`
counts the `'_'` separators in a name; it is the invariant separating the
two filename schemes of the persistence layer. -/
def countUnderscore (l : List Char) : ℕ := (l.filter (· = '_')).length

/-- `from_date.replace('-', '')` in the string branch of
`save_data_to_json` (services.py line 833): all dashes removed. -/
def stripDash (l : List Char) : List Char := l.filter (· ≠ '-')

/-- `get_json_filename(symbol, from_date, to_date, interval)`: the legacy
naming scheme `f"{symbol}_{from_date}_{to_date}_{interval}.json"`. -/
def get_json_filename (symbol from_date to_date interval : List Char) : List Char :=
  symbol ++ '_' :: from_date ++ '_' :: to_date ++ '_' :: interval ++ ".json".toList

/-- `get_json_filepath`: the legacy filename inside the data directory
(`os.path.join(self.data_dir, filename)`). -/
def get_json_filepath (dir symbol from_date to_date interval : List Char) : List Char :=
  dir ++ '/' :: get_json_filename symbol from_date to_date interval

/-- The filename written by the class-level `save_data_to_json`
(services.py line 848):
`f"{symbol}_{interval}_{from_date_str}_to_{to_date_str}_{timestamp}.json"`,
where `from_date_str`/`to_date_str` are the dash-stripped dates and
`timestamp = datetime.now().strftime("%Y%m%d_%H%M%S")` is passed here as
its two dash-free digit groups `tsDate` and `tsTime`. -/
def save_data_filename (symbol interval from_date to_date tsDate tsTime : List Char) :
    List Char :=
  symbol ++ '_' :: interval ++ '_' :: stripDash from_date
    ++ '_' :: 't' :: 'o' :: '_' :: stripDash to_date
    ++ '_' :: tsDate ++ '_' :: tsTime ++ ".json".toList

/-- The full path written by `save_data_to_json` (same `data_storage`
directory as the legacy scheme). -/
def save_data_filepath (dir symbol interval from_date to_date tsDate tsTime : List Char) :
    List Char :=
  dir ++ '/' :: save_data_filename symbol interval from_date to_date tsDate tsTime

/-- `load_data_from_json(symbol, from_date, to_date, interval)`: inspects
only the legacy path and returns the artifact (modelled by its path) when
such a file exists among `files`, `none` otherwise. -/
def load_data_from_json (files : List (List Char))
    (dir symbol from_date to_date interval : List Char) : Option (List Char) :=
  if get_json_filepath dir symbol from_date to_date interval ∈ files
  then some (get_json_filepath dir symbol from_date to_date interval)
  else none

theorem countUnderscore_append (a b : List Char) :
    countUnderscore (a ++ b) = countUnderscore a + countUnderscore b := by
  simp [countUnderscore, List.filter_append]

theorem countUnderscore_stripDash (l : List Char) :
    countUnderscore (stripDash l) = countUnderscore l := by
  induction l with
  | nil => rfl
  | cons c cs ih =>
      by_cases hc : c = '-'
      · subst hc
        simpa [stripDash, countUnderscore, List.filter_cons] using ih
      · by_cases hu : c = '_'
        · subst hu
          simpa [stripDash, countUnderscore, List.filter_cons] using ih
        · simpa [stripDash, countUnderscore, List.filter_cons, hc, hu] using ih

theorem countUnderscore_eq_zero (l : List Char) (h : '_' ∉ l) : countUnderscore l = 0 := by
  simp only [countUnderscore, List.length_eq_zero, List.filter_eq_nil_iff,
    decide_eq_true_eq]
  intro a ha hc
  exact h (hc ▸ ha)

/-- The timestamped save filename always carries exactly three more
underscore separators than the legacy filename over the same parameters. -/
theorem save_filename_count (symbol interval from_date to_date tsDate tsTime : List Char)
    (hD : '_' ∉ tsDate) (hT : '_' ∉ tsTime) :
    countUnderscore (save_data_filename symbol interval from_date to_date tsDate tsTime)
      = countUnderscore (get_json_filename symbol from_date to_date interval) + 3 := by
  have hjson : countUnderscore (".json".toList) = 0 := by decide
  have hcons : ∀ (c : Char) (l : List Char),
      countUnderscore (c :: l) = (if c = '_' then 1 else 0) + countUnderscore l := by
    intro c l
    by_cases hc : c = '_' <;> simp [countUnderscore, List.filter_cons, hc] <;> omega
  simp only [save_data_filename, get_json_filename, countUnderscore_append, hcons,
    countUnderscore_stripDash, countUnderscore_eq_zero tsDate hD,
    countUnderscore_eq_zero tsTime hT, hjson]
  rw [if_neg (by decide : ¬ ('t' = '_')), if_neg (by decide : ¬ ('o' = '_'))]
  norm_num
  omega

/-- C6: for every parameter set, the path written by `save_data_to_json`
(timestamped scheme) differs from the path `load_data_from_json` inspects
(legacy scheme), for any generation timestamp (whose two strftime digit
groups contain no underscore); consequently a load issued after a save with
identical parameters sees exactly the files it saw before the save, and
returns `none` unless a file under the legacy naming scheme independently
exists. -/
theorem c6_save_path_invisible_to_load
    (dir symbol interval from_date to_date tsDate tsTime : List Char)
    (hD : '_' ∉ tsDate) (hT : '_' ∉ tsTime) :
    (save_data_filepath dir symbol interval from_date to_date tsDate tsTime
        ≠ get_json_filepath dir symbol from_date to_date interval)
    ∧ (∀ files,
        load_data_from_json
            (save_data_filepath dir symbol interval from_date to_date tsDate tsTime :: files)
            dir symbol from_date to_date interval
          = load_data_from_json files dir symbol from_date to_date interval)
    ∧ (∀ files, load_data_from_json files dir symbol from_date to_date interval = none
        ↔ get_json_filepath dir symbol from_date to_date interval ∉ files) := by
  have hneq : save_data_filepath dir symbol interval from_date to_date tsDate tsTime
      ≠ get_json_filepath dir symbol from_date to_date interval := by
    intro h
    have hc := congrArg countUnderscore h
    rw [save_data_filepath, get_json_filepath, countUnderscore_append,
      countUnderscore_append] at hc
    have hcons : ∀ (c : Char) (l : List Char),
        countUnderscore (c :: l) = (if c = '_' then 1 else 0) + countUnderscore l := by
      intro c l
      by_cases hcu : c = '_' <;> simp [countUnderscore, List.filter_cons, hcu] <;> omega
    rw [hcons, hcons,
      save_filename_count symbol interval from_date to_date tsDate tsTime hD hT] at hc
    omega
  refine ⟨hneq, ?_, ?_⟩
  · intro files
    unfold load_data_from_json
    have : (get_json_filepath dir symbol from_date to_date interval
        ∈ save_data_filepath dir symbol interval from_date to_date tsDate tsTime :: files)
        ↔ get_json_filepath dir symbol from_date to_date interval ∈ files := by
      simp only [List.mem_cons]
      constructor
      · rintro (h | h)
        · exact absurd h.symm hneq
        · exact h
      · exact Or.inr
    by_cases hmem : get_json_filepath dir symbol from_date to_date interval ∈ files
    · rw [if_pos (this.mpr hmem), if_pos hmem]
    · rw [if_neg (fun h => hmem (this.mp h)), if_neg hmem]
  · intro files
    unfold load_data_from_json
    by_cases hmem : get_json_filepath dir symbol from_date to_date interval ∈ files
    · simp [hmem]
    · simp [hmem]

/-- C6 witness: the path inequality and load/save independence
instantiated at symbol "RELIANCE", dates 2024-01-01 to 2024-04-01, interval
"minute", timestamp 20251012_103000, over an initially empty file store. -/
theorem c6_save_path_invisible_to_load_witness :
    (save_data_filepath "data_storage".toList "RELIANCE".toList "minute".toList
        "2024-01-01".toList "2024-04-01".toList "20251012".toList "103000".toList
      ≠ get_json_filepath "data_storage".toList "RELIANCE".toList
          "2024-01-01".toList "2024-04-01".toList "minute".toList)
    ∧ load_data_from_json
        [save_data_filepath "data_storage".toList "RELIANCE".toList "minute".toList
          "2024-01-01".toList "2024-04-01".toList "20251012".toList "103000".toList]
        "data_storage".toList "RELIANCE".toList
        "2024-01-01".toList "2024-04-01".toList "minute".toList
      = load_data_from_json [] "data_storage".toList "RELIANCE".toList
          "2024-01-01".toList "2024-04-01".toList "minute".toList := by
  have h := c6_save_path_invisible_to_load "data_storage".toList "RELIANCE".toList
    "minute".toList "2024-01-01".toList "2024-04-01".toList "20251012".toList
    "103000".toList (by decide) (by decide)
  exact ⟨h.1, h.2.1 []⟩

/-- The recursive step of pandas `ewm(span=s, adjust=False).mean()`:
`e_i = a * x_i + (1 - a) * e_(i-1)` with smoothing factor `a = 2/(span+1)`,
seeded by the first value. -/
def ewmGo (a : ℚ) (prev : ℚ) : List ℚ → List ℚ
  | [] => []
  | x :: xs =>
      let e := a * x + (1 - a) * prev
      e :: ewmGo a e xs

/-- `series.ewm(span=span, adjust=False).mean()` over a list of values. -/
def ewm (span : ℕ) : List ℚ → List ℚ
  | [] => []
  | x :: xs => x :: ewmGo (2 / (span + 1)) x xs

/-- `df["close"].rolling(window=5).mean()` at index `i`: undefined (NaN in
pandas) for the first 4 indices and out-of-range indices, otherwise the
trailing mean of the latest 5 closes. -/
def rollingMA5 (closes : List ℚ) (i : ℕ) : Option ℚ :=
  if 4 ≤ i ∧ i < closes.length then some ((((closes.drop (i - 4)).take 5).sum) / 5)
  else none

/-- `df["MACD"]` from `calculate_indicators`: EMA(span 12) minus EMA(span 26)
of the closes. -/
def macdLine (closes : List ℚ) : List ℚ :=
  List.zipWith (fun a b => a - b) (ewm 12 closes) (ewm 26 closes)

/-- `df["MACD_Signal"]`: EMA(span 9) of the MACD line. -/
def macdSignal (closes : List ℚ) : List ℚ := ewm 9 (macdLine closes)

/-- `df["MACD_Histogram"]`: MACD line minus signal line. -/
def macdHistogram (closes : List ℚ) : List ℚ :=
  List.zipWith (fun a b => a - b) (macdLine closes) (macdSignal closes)

theorem ewmGo_const (a c : ℚ) : ∀ k, ewmGo a c (List.replicate k c) = List.replicate k c := by
  intro k
  induction k with
  | zero => rfl
  | succ n ih =>
      simp only [List.replicate_succ, ewmGo]
      rw [show a * c + (1 - a) * c = c from by ring]
      rw [ih]

theorem ewm_const (span : ℕ) (m : ℕ) (c : ℚ) :
    ewm span (List.replicate m c) = List.replicate m c := by
  cases m with
  | zero => rfl
  | succ n =>
      simp only [List.replicate_succ, ewm]
      rw [ewmGo_const]

theorem zipWith_sub_replicate (m : ℕ) (c : ℚ) :
    List.zipWith (fun a b => a - b) (List.replicate m c) (List.replicate m c)
      = List.replicate m 0 := by
  induction m with
  | zero => rfl
  | succ n ih => simp [List.replicate_succ, ih]

/-- C8: on a constant-price series of length at least 5, the 5-period
moving average is undefined at the first 4 indices and equals the constant
at every in-range index from 4 on, and the MACD line and MACD histogram are
0 at every index. -/
theorem c8_constant_series_indicators (m : ℕ) (c : ℚ) (_hm : 5 ≤ m) :
    (∀ i, i < 4 → rollingMA5 (List.replicate m c) i = none)
    ∧ (∀ i, 4 ≤ i → i < m → rollingMA5 (List.replicate m c) i = some c)
    ∧ macdLine (List.replicate m c) = List.replicate m 0
    ∧ macdHistogram (List.replicate m c) = List.replicate m 0 := by
  have hmacd : macdLine (List.replicate m c) = List.replicate m 0 := by
    rw [macdLine, ewm_const, ewm_const, zipWith_sub_replicate]
  refine ⟨?_, ?_, hmacd, ?_⟩
  · intro i hi
    rw [rollingMA5, if_neg]
    omega
  · intro i h4 hlt
    rw [rollingMA5, if_pos (by simp; omega)]
    rw [List.drop_replicate, List.take_replicate]
    have hmin : min 5 (m - (i - 4)) = 5 := by omega
    rw [hmin, List.sum_replicate]
    congr 1
    push_cast [nsmul_eq_mul]
    ring
  · rw [macdHistogram, hmacd, macdSignal, hmacd, ewm_const, zipWith_sub_replicate]

/-- C8 witness: the constant series of length 6 with value 3. -/
theorem c8_constant_series_indicators_witness :
    rollingMA5 (List.replicate 6 (3 : ℚ)) 2 = none
    ∧ rollingMA5 (List.replicate 6 (3 : ℚ)) 4 = some 3
    ∧ macdLine (List.replicate 6 (3 : ℚ)) = List.replicate 6 0
    ∧ macdHistogram (List.replicate 6 (3 : ℚ)) = List.replicate 6 0 := by
  have h := c8_constant_series_indicators 6 3 (by norm_num)
  exact ⟨h.1 2 (by norm_num), h.2.1 4 (by norm_num) (by norm_num), h.2.2.1, h.2.2.2⟩

/-- A row of the 15-minute DataFrame consumed by `implement_strategy`:
timestamp, open, close, the `MA_5` column (optional, NaN for undefined) and
the `MACD_Histogram` column (always defined on the output of
`calculate_indicators`).  Pandas comparisons involving NaN are false, which
the `Option`-typed comparisons below reproduce. -/
structure Row15 where
  time : ℤ
  openPrice : ℚ
  closePrice : ℚ
  ma5 : Option ℚ
  hist : ℚ
deriving DecidableEq

instance : Inhabited Row15 := ⟨⟨0, 0, 0, none, 0⟩⟩

/-- A candle of a coarser timeframe (1H or 1D). -/
structure Candle where
  time : ℤ
  openPrice : ℚ
  closePrice : ℚ
deriving DecidableEq

/-- An emitted signal: row index, `Signal` column value (1 = BUY,
-1 = SELL), `Signal_Price` and `Signal_Confidence`. -/
structure SignalRec where
  idx : ℕ
  signal : ℤ
  price : ℚ
  confidence : ℚ
deriving DecidableEq

/-- `df_1h[df_1h.index <= current_15m_time].iloc[-1]`: the most recent
candle whose timestamp is at most `t`; `none` when the filter is empty
(in which case the source raises IndexError and `continue`s). -/
def lastCandleLE (candles : List Candle) (t : ℤ) : Option Candle :=
  (candles.filter (fun c => c.time ≤ t)).getLast?

/-- `NaN`-aware `>` between an optional MA value and a price: false when
the MA is undefined. -/
def optGT : Option ℚ → ℚ → Bool
  | some x, y => x > y
  | none, _ => false

/-- `NaN`-aware `<` between two optional MA values. -/
def optLT : Option ℚ → Option ℚ → Bool
  | some x, some y => x < y
  | _, _ => false

/-- `NaN`-aware `≥` between two optional MA values. -/
def optGE : Option ℚ → Option ℚ → Bool
  | some x, some y => x ≥ y
  | _, _ => false

/-- The BUY condition of `implement_strategy` at index `i`
(`ma_cross_up and all_green`): `MA_5[i] > close[i-1]`, the current fine
candle is bullish, and the aligned hourly and daily candles are bullish. -/
def buyCond (rows : List Row15) (hc dc : Candle) (i : ℕ) : Bool :=
  optGT (rows.getD i default).ma5 (rows.getD (i - 1) default).closePrice
    && decide ((rows.getD i default).closePrice > (rows.getD i default).openPrice)
    && decide (hc.closePrice > hc.openPrice)
    && decide (dc.closePrice > dc.openPrice)

/-- The SELL condition of `implement_strategy` at index `i`
(`macd_red_histogram and ma_cross_down`): negative MACD histogram,
`MA_5[i] < MA_5[i-1]` and `MA_5[i-1] >= MA_5[i-2]`. -/
def sellCond (rows : List Row15) (i : ℕ) : Bool :=
  decide ((rows.getD i default).hist < 0)
    && optLT (rows.getD i default).ma5 (rows.getD (i - 1) default).ma5
    && optGE (rows.getD (i - 1) default).ma5 (rows.getD (i - 2) default).ma5

/-- The `for i in range(5, len(df_15m))` loop of `implement_strategy`,
carrying the `in_trade` state and collecting the rows whose `Signal`
column is set.  Fuel-based recursion: each step consumes one fuel and
advances `i`, so fuel `rows.length` suffices from `i = 5`. -/
def stratGo (rows : List Row15) (h1 d1 : List Candle) : ℕ → ℕ → Bool → List SignalRec
  | 0, _, _ => []
  | fuel + 1, i, inTrade =>
      if i < rows.length then
        match lastCandleLE h1 (rows.getD i default).time,
            lastCandleLE d1 (rows.getD i default).time with
        | some hc, some dc =>
            if inTrade then
              if sellCond rows i then
                ⟨i, -1, (rows.getD i default).closePrice, 8/10⟩
                  :: stratGo rows h1 d1 fuel (i + 1) false
              else stratGo rows h1 d1 fuel (i + 1) true
            else
              if buyCond rows hc dc i then
                ⟨i, 1, (rows.getD i default).closePrice, 8/10⟩
                  :: stratGo rows h1 d1 fuel (i + 1) true
              else stratGo rows h1 d1 fuel (i + 1) false
        | _, _ => stratGo rows h1 d1 fuel (i + 1) inTrade
      else []

/-- `implement_strategy(df_15m, df_1h, df_1d)`: walk the fine series from
index 5 in state NOT_IN_TRADE, returning the emitted signals. -/
def implement_strategy (rows : List Row15) (h1 d1 : List Candle) : List SignalRec :=
  stratGo rows h1 d1 rows.length 5 false

/-- `NaN`-aware `≤` between two optional MA values (used only to state the
claim's version of the sell rule). -/
def optLE : Option ℚ → Option ℚ → Bool
  | some x, some y => x ≤ y
  | _, _ => false

/-- The sell condition as the claim states it: histogram negative,
`MA_5[i] < MA_5[i-1]` and `MA_5[i-1] <= MA_5[i-2]`.  The code instead
requires `MA_5[i-1] >= MA_5[i-2]`. -/
def claimSellCond (rows : List Row15) (i : ℕ) : Bool :=
  decide ((rows.getD i default).hist < 0)
    && optLT (rows.getD i default).ma5 (rows.getD (i - 1) default).ma5
    && optLE (rows.getD (i - 1) default).ma5 (rows.getD (i - 2) default).ma5

/-- A concrete 15-minute series: a BUY fires at index 5 (MA 3 above the
previous close 2, all candles bullish) and at index 6 the MACD histogram is
negative while MA_5 moves 1, 3, 2 over indices 4, 5, 6 — a peak, so the
code's `MA_5[i-1] >= MA_5[i-2]` holds but the claim's
`MA_5[i-1] <= MA_5[i-2]` fails. -/
def cRows : List Row15 :=
  [⟨0, 1, 1, none, 0⟩, ⟨1, 1, 1, none, 0⟩, ⟨2, 1, 1, none, 0⟩, ⟨3, 1, 1, none, 0⟩,
   ⟨4, 1, 2, some 1, 0⟩, ⟨5, 1, 3, some 3, 0⟩, ⟨6, 1, 4, some 2, -1⟩,
   ⟨7, 20, 10, some 0, 0⟩]

/-- A single bullish hourly candle, aligned before every row of `cRows`. -/
def cH : List Candle := [⟨0, 1, 2⟩]

/-- A single bullish daily candle, aligned before every row of `cRows`. -/
def cD : List Candle := [⟨0, 1, 2⟩]

/-- C2 counterexample: running `implement_strategy` on `cRows` emits a BUY
at index 5 and then, in state IN_TRADE, a SELL at index 6 (confidence 0.8)
— yet the claim's sell condition (`MA_5[i-1] <= MA_5[i-2]`) is false at
index 6, refuting the claimed "exactly when". -/
theorem c2_sell_rule_counterexample :
    implement_strategy cRows cH cD
      = [⟨5, 1, 3, 8/10⟩, ⟨6, -1, 4, 8/10⟩]
    ∧ claimSellCond cRows 6 = false :=
  ⟨rfl, rfl⟩

/-- C2 (amended): while the state is IN_TRADE at an in-range index whose
aligned hourly and daily candles exist, the step emits a SELL signal with
confidence 0.8 and moves to NOT_IN_TRADE exactly when the MACD histogram
is negative AND `MA_5[i] < MA_5[i-1]` AND `MA_5[i-1] >= MA_5[i-2]`
(the 5-period moving average has just turned down after rising or staying
flat); otherwise the step emits nothing and stays IN_TRADE. -/
theorem c2_sell_rule (rows : List Row15) (h1 d1 : List Candle) (fuel i : ℕ)
    (hi : i < rows.length)
    (hh : (lastCandleLE h1 (rows.getD i default).time).isSome)
    (hd : (lastCandleLE d1 (rows.getD i default).time).isSome) :
    stratGo rows h1 d1 (fuel + 1) i true
      = if sellCond rows i
        then ⟨i, -1, (rows.getD i default).closePrice, 8/10⟩
            :: stratGo rows h1 d1 fuel (i + 1) false
        else stratGo rows h1 d1 fuel (i + 1) true := by
  obtain ⟨hc, hhc⟩ := Option.isSome_iff_exists.mp hh
  obtain ⟨dc, hdc⟩ := Option.isSome_iff_exists.mp hd
  simp only [stratGo, if_pos hi, hhc, hdc, if_true]

/-- C2 witness: the sell-rule characterization instantiated at `cRows`,
index 6, state IN_TRADE. -/
theorem c2_sell_rule_witness :
    stratGo cRows cH cD 2 6 true
      = if sellCond cRows 6
        then ⟨6, -1, (cRows.getD 6 default).closePrice, 8/10⟩ :: stratGo cRows cH cD 1 7 false
        else stratGo cRows cH cD 1 7 true :=
  c2_sell_rule cRows cH cD 1 6 (by decide) (by decide) (by decide)

/-- A row of the signal-annotated DataFrame consumed by
`backtest_strategy`: its `Signal` column value and close price. -/
structure SRow where
  signal : ℤ
  closePrice : ℚ
deriving DecidableEq

/-- `df.loc[df["Signal"] == 1, "close"]`: close prices at BUY signals, in
chronological order. -/
def buysOf (df : List SRow) : List ℚ :=
  (df.filter (fun r => r.signal = 1)).map (·.closePrice)

/-- `df.loc[df["Signal"] == -1, "close"]`: close prices at SELL signals. -/
def sellsOf (df : List SRow) : List ℚ :=
  (df.filter (fun r => r.signal = -1)).map (·.closePrice)

/-- `n = min(len(buys), len(sells))`: trades are paired index-for-index up
to `n`; a trailing unmatched BUY is discarded. -/
def numTrades (df : List SRow) : ℕ := min (buysOf df).length (sellsOf df).length

/-- `profits = sells.iloc[:n].values - buys.iloc[:n].values`. -/
def profits (df : List SRow) : List ℚ :=
  List.zipWith (fun s b => s - b) ((sellsOf df).take (numTrades df))
    ((buysOf df).take (numTrades df))

/-- `trade_returns = profits / buys.iloc[:n].values`. -/
def tradeReturns (df : List SRow) : List ℚ :=
  List.zipWith (fun s b => (s - b) / b) ((sellsOf df).take (numTrades df))
    ((buysOf df).take (numTrades df))

/-- `strategy_returns`: a series of zeros over the DataFrame index with the
trade returns written at the first `n` SELL-signal positions
(`strategy_returns.loc[df.loc[df["Signal"] == -1].index[:n]] = trade_returns`). -/
def strategyReturnsGo : List ℚ → List SRow → List ℚ
  | _, [] => []
  | rets, r :: rs =>
      if r.signal = -1 then
        match rets with
        | [] => 0 :: strategyReturnsGo [] rs
        | x :: xs => x :: strategyReturnsGo xs rs
      else 0 :: strategyReturnsGo rets rs

/-- The `Strategy_Returns` column. -/
def strategyReturns (df : List SRow) : List ℚ :=
  strategyReturnsGo (tradeReturns df) df

/-- `df["close"].pct_change()` after the leading NaN: per-bar relative
changes chained from `prev`. -/
def pctChangesGo (prev : ℚ) : List ℚ → List ℚ
  | [] => []
  | x :: xs => (x - prev) / prev :: pctChangesGo x xs

/-- `df["Returns"] = df["close"].pct_change()` with the leading NaN sent to
0 by `fillna(0)`.  (A zero previous close would be a division by zero in
Python; `ℚ` idealizes it as 0, which no claim depends on.) -/
def pctChanges : List ℚ → List ℚ
  | [] => []
  | x :: xs => 0 :: pctChangesGo x xs

/-- `(1 + series).cumprod().iloc[-1]`: for a nonempty series this is the
product of `1 + r` over all entries. -/
def cumReturn (xs : List ℚ) : ℚ := (xs.map (fun r => 1 + r)).prod

/-- The result dictionary of `backtest_strategy`. -/
structure BacktestResult where
  total_trades : ℕ
  winning_trades : ℕ
  losing_trades : ℕ
  total_return : ℚ
  market_return : ℚ
  strategy_return : ℚ
  buy_signals : ℕ
  sell_signals : ℕ
  win_rate : ℚ
deriving DecidableEq

/-- `backtest_strategy(df)` from `strategy_service.py`: pairs BUY and SELL
close prices index-for-index up to `n`, computes per-trade profits and
returns, compounds the strategy-return and market-return series, and
returns the metrics dictionary (all-zero when `n = 0`). -/
def backtest_strategy (df : List SRow) : BacktestResult :=
  let n := numTrades df
  if n = 0 then ⟨0, 0, 0, 0, 0, 0, 0, 0, 0⟩
  else
    let prof := profits df
    let winning := (prof.filter (fun p => 0 < p)).length
    let losing := (prof.filter (fun p => p ≤ 0)).length
    let market_return := (cumReturn (pctChanges (df.map (·.closePrice))) - 1) * 100
    let strategy_return := (cumReturn (strategyReturns df) - 1) * 100
    ⟨n, winning, losing, strategy_return, market_return, strategy_return,
      (df.filter (fun r => r.signal = 1)).length,
      (df.filter (fun r => r.signal = -1)).length,
      (winning : ℚ) / (n : ℚ) * 100⟩

/-- C9: in both the zero-trade dictionary and the general one, the
`total_return` and `strategy_return` fields of `backtest_strategy` are the
same value, for every input series. -/
theorem c9_total_eq_strategy_return (df : List SRow) :
    (backtest_strategy df).total_return = (backtest_strategy df).strategy_return := by
  unfold backtest_strategy
  by_cases h : numTrades df = 0 <;> simp [h]

/-- The claim's example series: BUY at closes 100 and 110, SELL at closes
120 and 100, in chronological order, plus a trailing unmatched BUY at 105
(which pairing must discard). -/
def df7 : List SRow := [⟨1, 100⟩, ⟨-1, 120⟩, ⟨1, 110⟩, ⟨-1, 100⟩, ⟨1, 105⟩]

/-- C7: on `df7` the backtest reports 2 trades (the trailing third BUY is
discarded), 1 winner and 1 loser, per-trade returns 1/5 = 0.20 and −1/11,
and a win rate of 50%. -/
theorem c7_backtest_example :
    (backtest_strategy df7).total_trades = 2
    ∧ (backtest_strategy df7).winning_trades = 1
    ∧ (backtest_strategy df7).losing_trades = 1
    ∧ tradeReturns df7 = [1/5, -1/11]
    ∧ (backtest_strategy df7).win_rate = 50
    ∧ (backtest_strategy df7).buy_signals = 3
    ∧ (backtest_strategy df7).sell_signals = 2 := by
  have hprof : profits df7 = [20, -10] := by
    show [(120 - 100 : ℚ), (100 - 110 : ℚ)] = [20, -10]
    norm_num
  refine ⟨rfl, ?_, ?_, ?_, ?_, rfl, rfl⟩
  · show ((profits df7).filter (fun p => 0 < p)).length = 1
    rw [hprof]
    norm_num
  · show ((profits df7).filter (fun p => p ≤ 0)).length = 1
    rw [hprof]
    norm_num
  · show [(120 - 100 : ℚ) / 100, (100 - 110 : ℚ) / 110] = [1/5, -1/11]
    norm_num
  · show (((profits df7).filter (fun p => 0 < p)).length : ℚ) / ((2 : ℕ) : ℚ) * 100 = 50
    rw [hprof]
    norm_num

/-- Python's bankers' rounding of a rational to the nearest integer
(`round(x)`): ties go to the even integer. -/
def roundHalfEven (x : ℚ) : ℤ :=
  let f := ⌊x⌋
  let r := x - f
  if r < 1/2 then f
  else if 1/2 < r then f + 1
  else if f % 2 = 0 then f else f + 1

/-- `round(x, 2)`: bankers' rounding to two decimal places. -/
def round2 (x : ℚ) : ℚ := (roundHalfEven (100 * x) : ℚ) / 100

theorem le_roundHalfEven (x : ℚ) : ⌊x⌋ ≤ roundHalfEven x := by
  unfold roundHalfEven
  dsimp only
  split_ifs <;> omega

theorem roundHalfEven_le (x : ℚ) : roundHalfEven x ≤ ⌊x⌋ + 1 := by
  unfold roundHalfEven
  dsimp only
  split_ifs <;> omega

theorem roundHalfEven_mono {x y : ℚ} (h : x ≤ y) : roundHalfEven x ≤ roundHalfEven y := by
  have hf : ⌊x⌋ ≤ ⌊y⌋ := Int.floor_le_floor h
  by_cases heq : ⌊x⌋ = ⌊y⌋
  · have hr : x - ⌊x⌋ ≤ y - ⌊y⌋ := by
      rw [← heq]
      linarith
    unfold roundHalfEven
    dsimp only
    rw [← heq]
    split_ifs <;> first | omega | linarith
  · have hlt : ⌊x⌋ < ⌊y⌋ := lt_of_le_of_ne hf heq
    have h1 := roundHalfEven_le x
    have h2 := le_roundHalfEven y
    omega

theorem round2_mono {x y : ℚ} (h : x ≤ y) : round2 x ≤ round2 y := by
  unfold round2
  have h100 : (100 : ℚ) * x ≤ 100 * y := by linarith
  have := roundHalfEven_mono h100
  have hcast : ((roundHalfEven (100 * x) : ℤ) : ℚ) ≤ ((roundHalfEven (100 * y) : ℤ) : ℚ) := by
    exact_mod_cast this
  exact div_le_div_of_nonneg_right hcast (by norm_num) |>.trans_eq rfl

/-- One iteration's random draws in `_generate_sample_data`:
`variation = uniform(-2, 2)`, `dh = uniform(0, 2)` (added to open for the
high), `dl = uniform(0, 2)` (subtracted from open for the low),
`du = uniform(0, high - low)` (added to the low for the close) and
`vol = randint(1000, 100000)`. -/
structure Draw where
  variation : ℚ
  dh : ℚ
  dl : ℚ
  du : ℚ
  vol : ℤ
deriving DecidableEq

/-- The ranges `random.uniform` and `random.randint` guarantee for the
draws of one iteration (`high - low = dh + dl`). -/
def validDraw (d : Draw) : Prop :=
  -2 ≤ d.variation ∧ d.variation ≤ 2 ∧ 0 ≤ d.dh ∧ d.dh ≤ 2 ∧ 0 ≤ d.dl ∧ d.dl ≤ 2
  ∧ 0 ≤ d.du ∧ d.du ≤ d.dh + d.dl ∧ 1000 ≤ d.vol ∧ d.vol ≤ 100000

instance : Inhabited OHLCVRec := ⟨⟨0, 0, 0, 0, 0, 0⟩⟩

/-- The price-construction loop of `_generate_sample_data`, abstracted over
the sequence of accepted iterations (the trading-calendar checks only
decide which timestamps receive a record, never the price arithmetic, so
timestamps are omitted and each record's `date` is set to 0):
`open = base + variation`, `high = open + dh`, `low = open - dl`,
`close = low + du`, all rounded to 2 decimals in the stored record, and the
unrounded close chains into the next iteration's base
(`base_price = close_price`). -/
def generate_sample_data (base : ℚ) : List Draw → List OHLCVRec
  | [] => []
  | d :: ds =>
      let openP := base + d.variation
      let highP := openP + d.dh
      let lowP := openP - d.dl
      let closeP := lowP + d.du
      ⟨0, round2 openP, round2 highP, round2 lowP, round2 closeP, d.vol⟩
        :: generate_sample_data closeP ds

/-- C10: every record produced by the synthetic generator satisfies
`low ≤ min(open, close)`, `high ≥ max(open, close)` and `volume ≥ 0`. -/
theorem c10_sample_data_sanity (base : ℚ) (draws : List Draw)
    (h : ∀ d ∈ draws, validDraw d) :
    ∀ r ∈ generate_sample_data base draws,
      r.lowPrice ≤ min r.openPrice r.closePrice
      ∧ max r.openPrice r.closePrice ≤ r.highPrice
      ∧ 0 ≤ r.volume := by
  induction draws generalizing base with
  | nil =>
      intro r hr
      simp [generate_sample_data] at hr
  | cons d ds ih =>
      intro r hr
      simp only [generate_sample_data, List.mem_cons] at hr
      rcases hr with rfl | hr
      · obtain ⟨h1, h2, h3, h4, h5, h6, h7, h8, h9, h10⟩ := h d (List.mem_cons_self _ _)
        refine ⟨le_min ?_ ?_, max_le ?_ ?_, by simp; omega⟩
        · exact round2_mono (by linarith)
        · exact round2_mono (by linarith)
        · exact round2_mono (by linarith)
        · exact round2_mono (by linarith)
      · exact ih _ (fun d' hd' => h d' (List.mem_cons_of_mem _ hd')) r hr

/-- C10 witness: the sanity conditions instantiated at the first record of
the generator run with base 100 and one draw
`variation = 1, dh = 1, dl = 1, du = 1, vol = 5000`. -/
theorem c10_sample_data_sanity_witness :
    ((generate_sample_data 100 [⟨1, 1, 1, 1, 5000⟩]).getD 0 default).lowPrice
      ≤ min ((generate_sample_data 100 [⟨1, 1, 1, 1, 5000⟩]).getD 0 default).openPrice
          ((generate_sample_data 100 [⟨1, 1, 1, 1, 5000⟩]).getD 0 default).closePrice
    ∧ max ((generate_sample_data 100 [⟨1, 1, 1, 1, 5000⟩]).getD 0 default).openPrice
          ((generate_sample_data 100 [⟨1, 1, 1, 1, 5000⟩]).getD 0 default).closePrice
      ≤ ((generate_sample_data 100 [⟨1, 1, 1, 1, 5000⟩]).getD 0 default).highPrice
    ∧ 0 ≤ ((generate_sample_data 100 [⟨1, 1, 1, 1, 5000⟩]).getD 0 default).volume := by
  have hvalid : ∀ d ∈ [(⟨1, 1, 1, 1, 5000⟩ : Draw)], validDraw d := by
    rintro d hd
    rcases List.mem_singleton.mp hd with rfl
    norm_num [validDraw]
  have hmem : (generate_sample_data 100 [⟨1, 1, 1, 1, 5000⟩]).getD 0 default
      ∈ generate_sample_data 100 [⟨1, 1, 1, 1, 5000⟩] :=
    List.mem_cons_self _ _
  exact c10_sample_data_sanity 100 [⟨1, 1, 1, 1, 5000⟩] hvalid _ hmem
